import Mathlib

/-!
Verification of the experiment-tracking façade used by the
`sagemaker-experiments/track-an-airflow-workflow` notebook.

The notebook's own code consists of: the Airflow DAG callables `train` and
`transform` (the Run Correlator), the listing cell building `execs_table`
(the Execution Lister's `tabulate`), and the `cleanup` function (the Cleanup
Procedure).  The experiment registry itself (experiment / trial /
trial-component CRUD, and the job platform's trial-binding behaviour) lives in
the external `smexperiments` / SageMaker SDKs; those operations are modelled
from the spec, each marked `Modelled from the spec:` in its doc comment.
-/

namespace SMWorkflow

/-- Error taxonomy of the façade, from the spec's section 7. -/
inductive Err where
  | NotFound
  | AlreadyExists
  | HasDependents
  | AssociatedElsewhere
  | SubmitFailed
  | TransientPlatformError
deriving DecidableEq

/-- A trial component: one unit of work (one external job).  `trials` is the
list of trial names the component is currently associated with. -/
structure TrialComponent where
  name : String
  displayName : String
  source : String
  creationTime : Nat
  trials : List String
deriving DecidableEq

/-- A trial: one workflow run, owned (by reference) by one experiment. -/
structure Trial where
  name : String
  experimentName : String
  creationTime : Nat
deriving DecidableEq

/-- An experiment record: unique name plus a description. -/
structure Experiment where
  name : String
  description : String
deriving DecidableEq

/-- The external registry's persistent state. -/
structure Registry where
  experiments : List Experiment
  trials : List Trial
  components : List TrialComponent
deriving DecidableEq

/-- Modelled from the spec: `create(name, description) -> Experiment` of the
Experiment Registry Client (smexperiments `Experiment.create`, not in src);
fails with `AlreadyExists` if an experiment with that name exists. -/
def Experiment.create (st : Registry) (name description : String) :
    Except Err (Registry × Experiment) :=
  if st.experiments.any (fun e => e.name == name) then
    .error .AlreadyExists
  else
    let e : Experiment := ⟨name, description⟩
    .ok ({ st with experiments := st.experiments ++ [e] }, e)

/-- Modelled from the spec: `load(name) -> Experiment` of the Experiment
Registry Client (smexperiments `Experiment.load`, not in src); fails with
`NotFound` if absent. -/
def Experiment.load (st : Registry) (name : String) : Except Err Experiment :=
  match st.experiments.find? (fun e => e.name == name) with
  | some e => .ok e
  | none => .error .NotFound

/-- Modelled from the spec: `delete(experiment)` of the Experiment Registry
Client (smexperiments `Experiment.delete`, not in src); fails with
`HasDependents` if any Trial still references this experiment. -/
def Experiment.deleteOp (st : Registry) (name : String) : Except Err Registry :=
  if st.trials.any (fun t => t.experimentName == name) then
    .error .HasDependents
  else
    .ok { st with experiments := st.experiments.filter (fun e => !(e.name == name)) }

/-- Modelled from the spec: loading a trial by name from the registry
(smexperiments `Trial.load`, not in src); fails with `NotFound` if absent. -/
def Trial.loadOp (st : Registry) (name : String) : Except Err Trial :=
  match st.trials.find? (fun t => t.name == name) with
  | some t => .ok t
  | none => .error .NotFound

/-- Modelled from the spec: detaching a trial component from a trial
(smexperiments `trial.remove_trial_component`, not in src); the association is
removed, the component record is kept. -/
def removeTrialComponent (st : Registry) (trialName tcName : String) : Registry :=
  { st with
    components := st.components.map (fun tc =>
      if tc.name == tcName then
        { tc with trials := tc.trials.filter (fun tn => !(tn == trialName)) }
      else tc) }

/-- Modelled from the spec: deleting a trial component record (smexperiments
`tc.delete`, not in src).  `fail` is an oracle for failures raised by the
external registry (rate limiting, etc.); independently, deletion fails with
`AssociatedElsewhere` while the component is still associated with a trial. -/
def TrialComponent.deleteOp (fail : String → Option Err) (st : Registry)
    (tcName : String) : Except Err Registry :=
  match fail tcName with
  | some e => .error e
  | none =>
    if st.components.any (fun tc => tc.name == tcName && !tc.trials.isEmpty) then
      .error .AssociatedElsewhere
    else
      .ok { st with components := st.components.filter (fun tc => !(tc.name == tcName)) }

/-- Modelled from the spec: deleting a trial record (smexperiments
`trial.delete`, not in src); fails with `HasDependents` if a trial component
is still attached, otherwise removes the record. -/
def Trial.deleteOp (st : Registry) (name : String) : Except Err Registry :=
  if st.components.any (fun tc => tc.trials.contains name) then
    .error .HasDependents
  else
    .ok { st with trials := st.trials.filter (fun t => !(t.name == name)) }

/-- Insert `x` into a list already sorted by `time`, keeping earlier elements
first among equal timestamps (stable insertion). -/
def insertByTime (time : α → Nat) (x : α) : List α → List α
  | [] => [x]
  | y :: ys => if time x ≤ time y then x :: y :: ys else y :: insertByTime time x ys

/-- Stable insertion sort by a `Nat`-valued timestamp. -/
def sortByTime (time : α → Nat) : List α → List α
  | [] => []
  | x :: xs => insertByTime time x (sortByTime time xs)

/-- Sort order accepted by the listing queries. -/
inductive SortOrder where
  | ascending
  | descending
deriving DecidableEq

/-- Modelled from the spec: `list_trials(experiment, sort_by=CreationTime,
order)` of the Execution Lister (smexperiments `experiment.list_trials`, not
in src); every call re-queries the registry state. -/
def listTrials (st : Registry) (experimentName : String) (order : SortOrder) :
    List Trial :=
  let ts := sortByTime Trial.creationTime
    (st.trials.filter (fun t => t.experimentName == experimentName))
  match order with
  | .ascending => ts
  | .descending => ts.reverse

/-- Modelled from the spec: listing the trial components associated with a
trial, ordered by creation time ascending (smexperiments
`trial.list_trial_components`, not in src). -/
def listTrialComponents (st : Registry) (trialName : String) : List TrialComponent :=
  sortByTime TrialComponent.creationTime
    (st.components.filter (fun tc => tc.trials.contains trialName))

/-- The view of a trial exposed to the listing cell: the notebook reads
`exe.trial_name`, `exe.trial_source['SourceArn']` and `exe.creation_time`
from each `TrialSummary`. -/
structure TrialSummaryView where
  trial_name : String
  sourceArn : String
  creation_time : Nat
deriving DecidableEq

/-- One row of the executions table. -/
structure ExecRow where
  rowName : String
  rowSource : String
  rowCreationTime : Nat
deriving DecidableEq

/-- Column labels of the executions table, from the notebook's
`pd.DataFrame(execs_details, columns=['Name', 'Source', 'CreationTime'])`. -/
def execs_table_columns : List String := ["Name", "Source", "CreationTime"]

/-- The notebook's listing cell: for each execution append
`[exe.trial_name, exe.trial_source['SourceArn'], exe.creation_time]` and build
a table from the rows. -/
def execs_table (executions : List TrialSummaryView) : List ExecRow :=
  executions.map (fun exe => ⟨exe.trial_name, exe.sourceArn, exe.creation_time⟩)

/-! The DAG callables of `~/airflow/dags/fashion-mnist-dag.py` (the Run
Correlator).  `train` submits a training job; the SDK assigns the job name
(modelled as the `assignedJobName` argument) and the callable returns it.
`transform` pulls the training job's name from the Airflow task-instance
XCom, attaches to it for the model data, and submits a transform job named
`f"\x7bbase_job_name\x7d-\x7bint(time.time())\x7d"`; it has no return
statement. -/

/-- The `experiment_name` constant of the DAG file. -/
def experiment_name : String := "fashion-mnist-classification-experiment"

/-- The `base_job_name` constant of the DAG file. -/
def base_job_name : String := "fashion-mnist-cnn"

/-- The orchestrator-provided run context (`**context`): the only part the
DAG reads is `context['ti'].xcom_pull(task_ids=...)`. -/
structure AirflowContext where
  xcomPull : String → Option String

/-- One job-submission call to the external platform, as issued by a DAG
callable: the data location, the job name, the model the job reads (for the
transform job, obtained by attaching to the upstream training job), and the
`experiment_config` map passed along. -/
structure Submission where
  inputData : String
  jobName : String
  modelJob : Option String
  experimentConfig : List (String × String)
deriving DecidableEq

/-- What a DAG callable produces: the submission it issued and the value it
returns to the orchestrator (pushed to XCom for downstream tasks). -/
structure TaskOutcome where
  submission : Submission
  returnValue : Option String
deriving DecidableEq

/-- The `train` callable: builds an estimator, calls `estimator.fit(data,
experiment_config={"ExperimentName": experiment_name,
"TrialComponentDisplayName": "Training"})` and returns
`estimator.latest_training_job.job_name` (the SDK-assigned name). -/
def train (data : String) (ctx : AirflowContext) (assignedJobName : String) :
    TaskOutcome :=
  { submission :=
      { inputData := data
        jobName := assignedJobName
        modelJob := none
        experimentConfig :=
          [("ExperimentName", experiment_name),
           ("TrialComponentDisplayName", "Training")] }
    returnValue := some assignedJobName }

/-- Name of the transform job: `f"\x7bbase_job_name\x7d-\x7bint(time.time())\x7d"`. -/
def transformJobName (now : Nat) : String :=
  base_job_name ++ "-" ++ toString now

/-- The `transform` callable: pulls the training job name via
`context['ti'].xcom_pull(task_ids='training')`, attaches to it, submits a
transform job with `experiment_config={"ExperimentName": experiment_name,
"TrialComponentDisplayName": "Transform"}`, and falls off the end of the
function body (returns `None`). -/
def transform (data : String) (ctx : AirflowContext) (now : Nat) :
    Option TaskOutcome :=
  match ctx.xcomPull "training" with
  | none => none
  | some trainingJob =>
    some
      { submission :=
          { inputData := data
            jobName := transformJobName now
            modelJob := some trainingJob
            experimentConfig :=
              [("ExperimentName", experiment_name),
               ("TrialComponentDisplayName", "Transform")] }
        returnValue := none }

/-- Opaque source reference (ARN) the platform records for a submitted job. -/
def jobSource (jobName : String) : String :=
  "arn:aws:sagemaker:job/" ++ jobName

/-- Modelled from the spec: the external platform's handling of a submission
carrying an `experiment_config` (SageMaker's trial binding, not in src): it
creates a Trial for the current orchestrator run if none exists, creates a
Trial Component for the job, and associates it with the Trial.  `runId`
identifies the current orchestrator run (its trial name). -/
def submitJob (st : Registry) (cfg : List (String × String))
    (runId jobName : String) (now : Nat) : Registry :=
  match cfg.lookup "ExperimentName", cfg.lookup "TrialComponentDisplayName" with
  | some expName, some displayName =>
    let st1 :=
      if st.trials.any (fun t => t.name == runId && t.experimentName == expName) then st
      else { st with trials := st.trials ++ [⟨runId, expName, now⟩] }
    { st1 with
      components :=
        st1.components ++ [⟨jobName, displayName, jobSource jobName, now, [runId]⟩] }
  | _, _ => st

/-- One row of the analytics view, keyed by trial component. -/
structure AnalyticsRow where
  trialComponentName : String
  displayName : String
deriving DecidableEq

/-- Trial components associated with some trial of the experiment. -/
def experimentComponents (st : Registry) (expName : String) : List TrialComponent :=
  st.components.filter (fun tc =>
    st.trials.any (fun t => t.experimentName == expName && tc.trials.contains t.name))

/-- Modelled from the spec: `analytics(experiment, sort_by, order)` of the
Execution Lister (`ExperimentAnalytics`, not in src): one row per Trial
Component of the experiment, sorted by creation time. -/
def analytics (st : Registry) (expName : String) (order : SortOrder) :
    List AnalyticsRow :=
  let cs := sortByTime TrialComponent.creationTime (experimentComponents st expName)
  let cs := match order with | .ascending => cs | .descending => cs.reverse
  cs.map (fun tc => ⟨tc.name, tc.displayName⟩)

/-! The cleanup cell of the notebook. -/

/-- Observable actions performed by the cleanup procedure, in order. -/
inductive Event where
  | detach (trialName tcName : String)
  | deleteComponent (tcName : String)
  | skipComponent (tcName : String)
  | sleep
  | deleteTrial (trialName : String)
  | deleteExperiment (experimentName : String)
deriving DecidableEq

/-- Result of a cleanup run: the registry afterwards, the trace of actions,
and the error the run aborted with, if any. -/
structure CleanupResult where
  state : Registry
  trace : List Event
  err : Option Err
deriving DecidableEq

/-- Inner loop of the notebook's `cleanup`: for each trial-component summary,
load the component, `trial.remove_trial_component(tc)`, then `try:
tc.delete() except: continue` — a bare `except` catching every error — and
`time.sleep(.5)` after a successful deletion only (`continue` skips it). -/
def cleanupComponents (fail : String → Option Err) (st : Registry)
    (trialName : String) : List String → Registry × List Event
  | [] => (st, [])
  | c :: rest =>
    let st1 := removeTrialComponent st trialName c
    match TrialComponent.deleteOp fail st1 c with
    | .ok st2 =>
      let r := cleanupComponents fail st2 trialName rest
      (r.1, Event.detach trialName c :: Event.deleteComponent c :: Event.sleep :: r.2)
    | .error _ =>
      let r := cleanupComponents fail st1 trialName rest
      (r.1, Event.detach trialName c :: Event.skipComponent c :: r.2)

/-- Outer loop of the notebook's `cleanup`: for each trial summary, load the
trial, clean up its components, then `trial.delete()`.  Errors other than the
component-deletion ones are not caught and abort the run. -/
def cleanupTrials (fail : String → Option Err) (st : Registry) :
    List String → CleanupResult
  | [] => ⟨st, [], none⟩
  | n :: rest =>
    match Trial.loadOp st n with
    | .error e => ⟨st, [], some e⟩
    | .ok _ =>
      let tcs := (st.components.filter (fun tc => tc.trials.contains n)).map
        TrialComponent.name
      let r1 := cleanupComponents fail st n tcs
      match Trial.deleteOp r1.1 n with
      | .error e => ⟨r1.1, r1.2, some e⟩
      | .ok st2 =>
        let r2 := cleanupTrials fail st2 rest
        ⟨r2.state, r1.2 ++ Event.deleteTrial n :: r2.trace, r2.err⟩

/-- Names of the trials of an experiment, as listed by the cleanup loop. -/
def expTrialNames (st : Registry) (expName : String) : List String :=
  (st.trials.filter (fun t => t.experimentName == expName)).map Trial.name

/-- The notebook's `cleanup(experiment)`: iterate `experiment.list_trials()`
(which reports `NotFound` for a deleted experiment), clean up every trial,
then `experiment.delete()`. -/
def cleanup (fail : String → Option Err) (st : Registry) (expName : String) :
    CleanupResult :=
  if st.experiments.any (fun e => e.name == expName) then
    let r := cleanupTrials fail st (expTrialNames st expName)
    match r.err with
    | some e => ⟨r.state, r.trace, some e⟩
    | none =>
      match Experiment.deleteOp r.state expName with
      | .ok st2 => ⟨st2, r.trace ++ [Event.deleteExperiment expName], none⟩
      | .error e => ⟨r.state, r.trace, some e⟩
  else ⟨st, [], some Err.NotFound⟩

/-- Names of the trial components associated with trial `m`, as listed by the
cleanup loop. -/
def trialTcNames (st : Registry) (m : String) : List String :=
  (st.components.filter (fun tc => tc.trials.contains m)).map TrialComponent.name

/-- Registry state after the cleanup loop has processed trial `m`: its
components detached (and deleted where possible) and the trial record
removed. -/
def afterTrialStep (fail : String → Option Err) (st : Registry) (m : String) :
    Registry :=
  { (cleanupComponents fail st m (trialTcNames st m)).1 with
    trials := (cleanupComponents fail st m (trialTcNames st m)).1.trials.filter
      (fun t => !(t.name == m)) }

/-- Oracle under which component deletion raises no external error; deletion
then fails only when the component is associated with another trial. -/
def noExternalFailure : String → Option Err := fun _ => none

/-! Trace predicates used to state the cleanup claims. -/

/-- Event test: a detach of a component from the trial named `t`. -/
def isDetachOf (t : String) : Event → Bool
  | Event.detach tn _ => tn == t
  | _ => false

/-- Event test: deletion of the trial named `t`. -/
def isDeleteTrialOf (t : String) : Event → Bool
  | Event.deleteTrial tn => tn == t
  | _ => false

/-- Event test: any trial deletion. -/
def isDeleteTrialEv : Event → Bool
  | Event.deleteTrial _ => true
  | _ => false

/-- Event test: any experiment deletion. -/
def isDeleteExperimentEv : Event → Bool
  | Event.deleteExperiment _ => true
  | _ => false

/-- Event test: the throttling delay. -/
def isSleepEv : Event → Bool
  | Event.sleep => true
  | _ => false

/-- Event test: a successful component deletion. -/
def isDeleteComponentEv : Event → Bool
  | Event.deleteComponent _ => true
  | _ => false

/-- `noLater p q evs` holds when no event satisfying `q` occurs at a position
strictly after an event satisfying `p`. -/
def noLater (p q : Event → Bool) : List Event → Bool
  | [] => true
  | e :: rest => (!p e || rest.all (fun x => !q x)) && noLater p q rest

/-- Every sleep in the trace immediately follows a successful component
deletion: the inter-deletion delay is skipped for failed deletions. -/
def SleepWellPlaced (l : List Event) : Prop :=
  (∀ e ∈ l.head?, isSleepEv e = false) ∧
    List.Chain' (fun a b => isSleepEv b = true → isDeleteComponentEv a = true) l

/-- The workflow run as the orchestrator executes it: run `train` on the
training data, hand its return value to the downstream task through XCom
under the upstream task id `training`, then run `transform` on the test
data; each submission is processed by the platform's trial binding under the
run's trial `runId`. -/
def runWorkflow (st0 : Registry) (data d2 job1 runId : String)
    (ctx : AirflowContext) (t1 t2 : Nat) : Registry :=
  let o1 := train data ctx job1
  let st1 := submitJob st0 o1.submission.experimentConfig runId
    o1.submission.jobName t1
  match transform d2
      ⟨fun tid => if tid == "training" then o1.returnValue else none⟩ t2 with
  | some o2 => submitJob st1 o2.submission.experimentConfig runId
      o2.submission.jobName t2
  | none => st1

/-! Theorems.  Claim identifiers refer to the frozen claim list. -/

/-- C2: for every input sequence of trial summaries, `execs_table` produces
one row per input (same length), the columns are `Name`, `Source`,
`CreationTime`, and the i-th row copies the i-th input's name, source
reference (`SourceArn`, unchanged) and creation time.  `execs_table` is a
plain function of its argument (pure, no I/O) by construction. -/
theorem execs_table_rowwise (executions : List TrialSummaryView) :
    (execs_table executions).length = executions.length ∧
    execs_table_columns = ["Name", "Source", "CreationTime"] ∧
    (∀ i : Nat, (execs_table executions)[i]? =
      (executions[i]?).map
        (fun exe => ⟨exe.trial_name, exe.sourceArn, exe.creation_time⟩)) ∧
    (∀ (i : Nat) (exe : TrialSummaryView), executions[i]? = some exe →
      ∃ row, (execs_table executions)[i]? = some row ∧
        row.rowSource = exe.sourceArn) := by
  refine ⟨by simp [execs_table], rfl, fun i => by simp [execs_table], ?_⟩
  intro i exe h
  refine ⟨⟨exe.trial_name, exe.sourceArn, exe.creation_time⟩, ?_, rfl⟩
  simp [execs_table, h]

/-- Witness for C2 at a concrete two-element input. -/
theorem execs_table_rowwise_witness :
    (["r1", "r2"].length = 2) ∧
    (∃ row, (execs_table [⟨"t1", "arn:a", 3⟩, ⟨"t2", "arn:b", 5⟩])[1]? = some row ∧
      row.rowSource = "arn:b") := by
  refine ⟨rfl, ?_⟩
  exact (execs_table_rowwise [⟨"t1", "arn:a", 3⟩, ⟨"t2", "arn:b", 5⟩]).2.2.2 1
    ⟨"t2", "arn:b", 5⟩ rfl

/-- C6: if `create(n, d)` succeeds then `load(n)` on the resulting registry
returns an experiment record with name `n` and description `d`. -/
theorem create_load_round_trip (st : Registry) (n d : String)
    (st' : Registry) (e : Experiment)
    (h : Experiment.create st n d = .ok (st', e)) :
    Experiment.load st' n = .ok ⟨n, d⟩ := by
  unfold Experiment.create at h
  by_cases hany : st.experiments.any (fun x => x.name == n) = true
  · simp [hany] at h
  · simp [hany] at h
    obtain ⟨hst, _⟩ := h
    unfold Experiment.load
    rw [← hst]
    have hnone : st.experiments.find? (fun x => x.name == n) = none := by
      rw [List.find?_eq_none]
      intro x hx
      have := (List.any_eq_false).mp (Bool.not_eq_true _ ▸ hany) x hx
      simpa using this
    rw [List.find?_append, hnone]
    simp

/-- Witness for C6 at a concrete registry. -/
theorem create_load_round_trip_witness :
    Experiment.load
      { experiments := [⟨"exp-1", "a study"⟩], trials := [], components := [] }
      "exp-1" = .ok ⟨"exp-1", "a study"⟩ :=
  create_load_round_trip ⟨[], [], []⟩ "exp-1" "a study"
    ⟨[⟨"exp-1", "a study"⟩], [], []⟩ ⟨"exp-1", "a study"⟩ rfl

/-- C7: if `create(n, d)` succeeds then, without an intervening delete, a
second `create(n, d')` fails with `AlreadyExists`. -/
theorem create_twice_already_exists (st : Registry) (n d d' : String)
    (st' : Registry) (e : Experiment)
    (h : Experiment.create st n d = .ok (st', e)) :
    Experiment.create st' n d' = .error .AlreadyExists := by
  unfold Experiment.create at h ⊢
  by_cases hany : st.experiments.any (fun x => x.name == n) = true
  · simp [hany] at h
  · simp [hany] at h
    obtain ⟨hst, _⟩ := h
    have : st'.experiments.any (fun x => x.name == n) = true := by
      rw [← hst]
      simp [List.any_append]
    simp [this]

/-- Witness for C7 at a concrete registry. -/
theorem create_twice_already_exists_witness :
    Experiment.create ⟨[⟨"exp-1", "a study"⟩], [], []⟩ "exp-1" "again" =
      .error .AlreadyExists :=
  create_twice_already_exists ⟨[], [], []⟩ "exp-1" "a study" "again"
    ⟨[⟨"exp-1", "a study"⟩], [], []⟩ ⟨"exp-1", "a study"⟩ rfl

/-- C9 counterexample: it is not the case that each of the two task
callables returns or exposes an external job identifier string — the
`transform` callable has no return statement, so on a concrete run (data
location `s3://bucket/test`, a context whose XCom holds the training job
name `training-job-1`, submission time 100) its return value is `None`. -/
theorem transform_returns_no_identifier :
    ¬ (∀ (data : String) (ctx : AirflowContext) (now : Nat) (out : TaskOutcome),
        transform data ctx now = some out → ∃ j, out.returnValue = some j) := by
  intro h
  have hc := h "s3://bucket/test"
    ⟨fun tid => if tid == "training" then some "training-job-1" else none⟩
    100
    ⟨⟨"s3://bucket/test", transformJobName 100, some "training-job-1",
      [("ExperimentName", experiment_name),
       ("TrialComponentDisplayName", "Transform")]⟩, none⟩
    rfl
  obtain ⟨j, hj⟩ := hc
  exact Option.noConfusion hj

/-- C9 amended: both callables accept a positional data-location argument
plus the orchestrator run context; the training callable returns the
submitted training job's identifier, while the transform callable returns no
identifier (its job name goes only to the submission call); and the
transform task obtains the upstream training job identifier exclusively
through the orchestrator's XCom pull of task `training` — its behaviour is a
function of that pulled value alone, and it never consults the tracking
registry (the registry is not among its inputs). -/
theorem task_callables_interface (data d2 : String) (ctx ctx2 : AirflowContext)
    (jobName : String) (now : Nat)
    (hx : ctx.xcomPull "training" = ctx2.xcomPull "training") :
    (train data ctx jobName).returnValue =
      some (train data ctx jobName).submission.jobName ∧
    (∀ out, transform d2 ctx now = some out →
      out.returnValue = none ∧
      out.submission.modelJob = ctx.xcomPull "training") ∧
    transform d2 ctx now = transform d2 ctx2 now := by
  refine ⟨rfl, ?_, ?_⟩
  · intro out hout
    unfold transform at hout
    cases hp : ctx.xcomPull "training" with
    | none => rw [hp] at hout; exact absurd hout (by simp)
    | some tj =>
      rw [hp] at hout
      simp at hout
      subst hout
      exact ⟨rfl, rfl⟩
  · unfold transform
    rw [hx]

/-- Witness for the amended C9 at concrete inputs. -/
theorem task_callables_interface_witness :
    (train "s3://bucket/train" ⟨fun _ => none⟩ "training-job-1").returnValue =
      some (train "s3://bucket/train" ⟨fun _ => none⟩
        "training-job-1").submission.jobName ∧
    (∀ out, transform "s3://bucket/test" ⟨fun _ => some "training-job-1"⟩ 100 =
        some out →
      out.returnValue = none ∧
      out.submission.modelJob = some "training-job-1") ∧
    transform "s3://bucket/test" ⟨fun _ => some "training-job-1"⟩ 100 =
      transform "s3://bucket/test" ⟨fun t => if t == "training" then
        some "training-job-1" else some "other"⟩ 100 := by
  have h := task_callables_interface "s3://bucket/train" "s3://bucket/test"
    ⟨fun _ => some "training-job-1"⟩
    ⟨fun t => if t == "training" then some "training-job-1" else some "other"⟩
    "training-job-1" 100 (by simp)
  exact ⟨h.1, fun out hout => ⟨(h.2.1 out hout).1, (h.2.1 out hout).2⟩, h.2.2⟩

/-- Characterization of the registry after a complete workflow run, when the
experiment had no prior trials: the run's single trial and the two trial
components created by the platform for the training and transform jobs. -/
theorem runWorkflow_eq (st0 : Registry) (data d2 job1 runId : String)
    (ctx : AirflowContext) (t1 t2 : Nat)
    (h1 : ∀ t ∈ st0.trials, t.experimentName ≠ experiment_name) :
    runWorkflow st0 data d2 job1 runId ctx t1 t2 =
      ⟨st0.experiments,
       st0.trials ++ [⟨runId, experiment_name, t1⟩],
       st0.components ++
         [⟨job1, "Training", jobSource job1, t1, [runId]⟩,
          ⟨transformJobName t2, "Transform", jobSource (transformJobName t2), t2,
           [runId]⟩]⟩ := by
  have hany : st0.trials.any
      (fun t => t.name == runId && t.experimentName == experiment_name) = false := by
    rw [List.any_eq_false]
    intro t ht
    simp [h1 t ht]
  unfold runWorkflow train transform
  simp [submitJob, List.lookup, hany, List.any_append]

/-- C1: submitting the training task and then the dependent transform task
with the same `ExperimentName` yields, on `list_trials` with
`sort_by=CreationTime, order=Ascending`, exactly one trial, and that trial
contains exactly two trial components ordered by creation time ascending.
The hypotheses say the experiment had no prior trials, no prior component
was associated with this run, and the transform submission does not precede
the training submission (sequential dependency). -/
theorem workflow_run_single_trial (st0 : Registry) (data d2 job1 runId : String)
    (ctx : AirflowContext) (t1 t2 : Nat)
    (h1 : ∀ t ∈ st0.trials, t.experimentName ≠ experiment_name)
    (h2 : ∀ tc ∈ st0.components, runId ∉ tc.trials)
    (h3 : t1 ≤ t2) :
    ∃ tr, listTrials (runWorkflow st0 data d2 job1 runId ctx t1 t2)
        experiment_name SortOrder.ascending = [tr] ∧
      ∃ c1 c2, listTrialComponents (runWorkflow st0 data d2 job1 runId ctx t1 t2)
          tr.name = [c1, c2] ∧
        c1.creationTime ≤ c2.creationTime := by
  rw [runWorkflow_eq st0 data d2 job1 runId ctx t1 t2 h1]
  refine ⟨⟨runId, experiment_name, t1⟩, ?_, ?_⟩
  · unfold listTrials
    have hnil : st0.trials.filter
        (fun t => t.experimentName == experiment_name) = [] := by
      rw [List.filter_eq_nil_iff]
      intro t ht
      simp [h1 t ht]
    simp [List.filter_append, hnil, sortByTime, insertByTime]
  · refine ⟨⟨job1, "Training", jobSource job1, t1, [runId]⟩,
      ⟨transformJobName t2, "Transform", jobSource (transformJobName t2), t2,
       [runId]⟩, ?_, h3⟩
    unfold listTrialComponents
    have hnil : st0.components.filter
        (fun tc => decide (runId ∈ tc.trials)) = [] := by
      rw [List.filter_eq_nil_iff]
      intro tc htc
      simp [h2 tc htc]
    simp [List.filter_append, hnil, sortByTime, insertByTime, h3]

/-- Witness for C1 at a concrete empty initial registry. -/
theorem workflow_run_single_trial_witness :
    ∃ tr, listTrials (runWorkflow ⟨[⟨experiment_name, "d"⟩], [], []⟩
        "s3://train" "s3://test" "job-1" "run-1" ⟨fun _ => none⟩ 1 2)
        experiment_name SortOrder.ascending = [tr] ∧
      ∃ c1 c2, listTrialComponents (runWorkflow ⟨[⟨experiment_name, "d"⟩], [], []⟩
          "s3://train" "s3://test" "job-1" "run-1" ⟨fun _ => none⟩ 1 2)
          tr.name = [c1, c2] ∧
        c1.creationTime ≤ c2.creationTime :=
  workflow_run_single_trial ⟨[⟨experiment_name, "d"⟩], [], []⟩
    "s3://train" "s3://test" "job-1" "run-1" ⟨fun _ => none⟩ 1 2
    (by simp) (by simp) (by decide)

/-- C3: each job submission carries an `experiment_config` map with exactly
the two string fields `ExperimentName` and `TrialComponentDisplayName`; the
training task passes display name `Training` and the transform task passes
`Transform`; and after the run the analytics view has exactly two rows, one
tagged with each display name. -/
theorem experiment_config_and_analytics (st0 : Registry)
    (data d2 job1 runId : String) (ctx ctx2 : AirflowContext) (t1 t2 : Nat)
    (h1 : ∀ t ∈ st0.trials, t.experimentName ≠ experiment_name)
    (h2 : ∀ tc ∈ st0.components, runId ∉ tc.trials)
    (h3 : t1 ≤ t2) :
    (train data ctx job1).submission.experimentConfig =
      [("ExperimentName", experiment_name),
       ("TrialComponentDisplayName", "Training")] ∧
    (∀ out, transform d2 ctx2 t2 = some out →
      out.submission.experimentConfig =
        [("ExperimentName", experiment_name),
         ("TrialComponentDisplayName", "Transform")]) ∧
    analytics (runWorkflow st0 data d2 job1 runId ctx t1 t2) experiment_name
        SortOrder.ascending =
      [⟨job1, "Training"⟩, ⟨transformJobName t2, "Transform"⟩] := by
  refine ⟨rfl, ?_, ?_⟩
  · intro out hout
    unfold transform at hout
    cases hp : ctx2.xcomPull "training" with
    | none => rw [hp] at hout; exact absurd hout (by simp)
    | some tj =>
      rw [hp] at hout
      simp at hout
      subst hout
      rfl
  · rw [runWorkflow_eq st0 data d2 job1 runId ctx t1 t2 h1]
    unfold analytics experimentComponents
    dsimp only
    have hnil : st0.components.filter
        (fun tc => (st0.trials ++ [(⟨runId, experiment_name, t1⟩ : Trial)]).any
          (fun t => t.experimentName == experiment_name &&
            tc.trials.contains t.name)) = [] := by
      rw [List.filter_eq_nil_iff]
      intro tc htc
      simp [List.any_append, h2 tc htc]
      intro t ht hexp
      exact absurd hexp (h1 t ht)
    rw [List.filter_append, hnil]
    simp [sortByTime, insertByTime, h3]

/-- Witness for C3 at a concrete empty initial registry. -/
theorem experiment_config_and_analytics_witness :
    (train "s3://train" ⟨fun _ => none⟩ "job-1").submission.experimentConfig =
      [("ExperimentName", experiment_name),
       ("TrialComponentDisplayName", "Training")] ∧
    (∀ out, transform "s3://test" ⟨fun _ => some "job-1"⟩ 2 = some out →
      out.submission.experimentConfig =
        [("ExperimentName", experiment_name),
         ("TrialComponentDisplayName", "Transform")]) ∧
    analytics (runWorkflow ⟨[⟨experiment_name, "d"⟩], [], []⟩
        "s3://train" "s3://test" "job-1" "run-1" ⟨fun _ => none⟩ 1 2)
        experiment_name SortOrder.ascending =
      [⟨"job-1", "Training"⟩, ⟨transformJobName 2, "Transform"⟩] :=
  experiment_config_and_analytics ⟨[⟨experiment_name, "d"⟩], [], []⟩
    "s3://train" "s3://test" "job-1" "run-1" ⟨fun _ => none⟩
    ⟨fun _ => some "job-1"⟩ 1 2 (by simp) (by simp) (by decide)

/-! Helper lemmas about the cleanup procedure. -/

theorem removeTrialComponent_trials (st : Registry) (n c : String) :
    (removeTrialComponent st n c).trials = st.trials := rfl

theorem removeTrialComponent_experiments (st : Registry) (n c : String) :
    (removeTrialComponent st n c).experiments = st.experiments := rfl

theorem TrialComponent.deleteOp_ok_state {fail : String → Option Err}
    {st : Registry} {c : String} {st' : Registry}
    (h : TrialComponent.deleteOp fail st c = .ok st') :
    st' = { st with components := st.components.filter (fun tc => !(tc.name == c)) } := by
  unfold TrialComponent.deleteOp at h
  split at h
  · exact absurd h (by simp)
  · split at h
    · exact absurd h (by simp)
    · exact (Except.ok.inj h).symm

theorem cleanupComponents_trials (fail : String → Option Err) (st : Registry)
    (n : String) (tcs : List String) :
    (cleanupComponents fail st n tcs).1.trials = st.trials := by
  induction tcs generalizing st with
  | nil => rfl
  | cons c rest ih =>
    unfold cleanupComponents
    dsimp only
    cases h : TrialComponent.deleteOp fail (removeTrialComponent st n c) c with
    | ok st2 =>
      dsimp only
      rw [ih st2, TrialComponent.deleteOp_ok_state h]
      rfl
    | error e =>
      dsimp only
      rw [ih (removeTrialComponent st n c)]
      rfl

theorem cleanupComponents_experiments (fail : String → Option Err) (st : Registry)
    (n : String) (tcs : List String) :
    (cleanupComponents fail st n tcs).1.experiments = st.experiments := by
  induction tcs generalizing st with
  | nil => rfl
  | cons c rest ih =>
    unfold cleanupComponents
    dsimp only
    cases h : TrialComponent.deleteOp fail (removeTrialComponent st n c) c with
    | ok st2 =>
      dsimp only
      rw [ih st2, TrialComponent.deleteOp_ok_state h]
      rfl
    | error e =>
      dsimp only
      rw [ih (removeTrialComponent st n c)]
      rfl

theorem removeTrialComponent_origin (st : Registry) (n c : String) :
    ∀ tc' ∈ (removeTrialComponent st n c).components,
      ∃ tc ∈ st.components, tc'.name = tc.name ∧ tc'.trials ⊆ tc.trials := by
  intro tc' h
  unfold removeTrialComponent at h
  simp only [List.mem_map] at h
  obtain ⟨tc, htc, heq⟩ := h
  refine ⟨tc, htc, ?_⟩
  by_cases hn : tc.name == c
  · simp [hn] at heq
    rw [← heq]
    exact ⟨rfl, fun x hx => List.mem_of_mem_filter hx⟩
  · simp [hn] at heq
    rw [← heq]
    exact ⟨rfl, fun x hx => hx⟩

theorem cleanupComponents_components_origin (fail : String → Option Err)
    (st : Registry) (n : String) (tcs : List String) :
    ∀ tc' ∈ (cleanupComponents fail st n tcs).1.components,
      ∃ tc ∈ st.components, tc'.name = tc.name ∧ tc'.trials ⊆ tc.trials := by
  induction tcs generalizing st with
  | nil => exact fun tc' h => ⟨tc', h, rfl, fun x hx => hx⟩
  | cons c rest ih =>
    intro tc' h
    unfold cleanupComponents at h
    dsimp only at h
    cases hdel : TrialComponent.deleteOp fail (removeTrialComponent st n c) c with
    | ok st2 =>
      rw [hdel] at h
      dsimp only at h
      obtain ⟨tcm, htcm, hname, hsub⟩ := ih st2 tc' h
      have hst2 : tcm ∈ (removeTrialComponent st n c).components := by
        rw [TrialComponent.deleteOp_ok_state hdel] at htcm
        exact List.mem_of_mem_filter htcm
      obtain ⟨tc0, htc0, hname0, hsub0⟩ := removeTrialComponent_origin st n c tcm hst2
      exact ⟨tc0, htc0, hname.trans hname0, fun x hx => hsub0 (hsub hx)⟩
    | error e =>
      rw [hdel] at h
      dsimp only at h
      obtain ⟨tcm, htcm, hname, hsub⟩ := ih (removeTrialComponent st n c) tc' h
      obtain ⟨tc0, htc0, hname0, hsub0⟩ := removeTrialComponent_origin st n c tcm htcm
      exact ⟨tc0, htc0, hname.trans hname0, fun x hx => hsub0 (hsub hx)⟩

theorem removeTrialComponent_detached (st : Registry) (n c : String) :
    ∀ tc' ∈ (removeTrialComponent st n c).components,
      tc'.name = c → n ∉ tc'.trials := by
  intro tc' h hname
  unfold removeTrialComponent at h
  simp only [List.mem_map] at h
  obtain ⟨tc, _, heq⟩ := h
  by_cases hn : tc.name == c
  · simp [hn] at heq
    rw [← heq]
    intro hmem
    simp at hmem
  · simp [hn] at heq
    rw [← heq] at hname
    exact absurd hname (by simpa using hn)

theorem cleanupComponents_detached (fail : String → Option Err) (st : Registry)
    (n : String) (tcs : List String) :
    ∀ c ∈ tcs, ∀ tc' ∈ (cleanupComponents fail st n tcs).1.components,
      tc'.name = c → n ∉ tc'.trials := by
  induction tcs generalizing st with
  | nil => intro c hc; exact absurd hc (List.not_mem_nil c)
  | cons c0 rest ih =>
    intro c hc tc' htc' hname
    unfold cleanupComponents at htc'
    dsimp only at htc'
    rcases List.mem_cons.mp hc with hceq | hcrest
    · subst hceq
      cases hdel : TrialComponent.deleteOp fail (removeTrialComponent st n c) c
        with
      | ok st2 =>
        rw [hdel] at htc'
        dsimp only at htc'
        obtain ⟨tcm, htcm, hnamem, hsubm⟩ :=
          cleanupComponents_components_origin fail st2 n rest tc' htc'
        have htcm1 : tcm ∈ (removeTrialComponent st n c).components := by
          rw [TrialComponent.deleteOp_ok_state hdel] at htcm
          exact List.mem_of_mem_filter htcm
        have hdet := removeTrialComponent_detached st n c tcm htcm1
          (by rw [← hnamem, hname])
        exact fun hmem => hdet (hsubm hmem)
      | error e =>
        rw [hdel] at htc'
        dsimp only at htc'
        obtain ⟨tcm, htcm, hnamem, hsubm⟩ :=
          cleanupComponents_components_origin fail (removeTrialComponent st n c)
            n rest tc' htc'
        have hdet := removeTrialComponent_detached st n c tcm htcm
          (by rw [← hnamem, hname])
        exact fun hmem => hdet (hsubm hmem)
    · cases hdel : TrialComponent.deleteOp fail (removeTrialComponent st n c0) c0
        with
      | ok st2 =>
        rw [hdel] at htc'
        dsimp only at htc'
        exact ih st2 c hcrest tc' htc' hname
      | error e =>
        rw [hdel] at htc'
        dsimp only at htc'
        exact ih (removeTrialComponent st n c0) c hcrest tc' htc' hname

theorem cleanupComponents_full_detach (fail : String → Option Err)
    (st : Registry) (n : String) :
    ∀ tc' ∈ (cleanupComponents fail st n
      ((st.components.filter (fun tc => tc.trials.contains n)).map
        TrialComponent.name)).1.components, n ∉ tc'.trials := by
  intro tc' htc' hmem
  obtain ⟨tc, htc, hname, hsub⟩ :=
    cleanupComponents_components_origin fail st n _ tc' htc'
  have hassoc : n ∈ tc.trials := hsub hmem
  have hin : tc.name ∈ (st.components.filter
      (fun tc => tc.trials.contains n)).map TrialComponent.name := by
    exact List.mem_map_of_mem _ (List.mem_filter.mpr ⟨htc, by simpa using hassoc⟩)
  exact cleanupComponents_detached fail st n _ tc.name (hname ▸ hin) tc' htc'
    hname hmem

theorem cleanupComponents_detach_mem (fail : String → Option Err)
    (st : Registry) (n : String) (tcs : List String) :
    ∀ c ∈ tcs, Event.detach n c ∈ (cleanupComponents fail st n tcs).2 := by
  induction tcs generalizing st with
  | nil => intro c hc; exact absurd hc (List.not_mem_nil c)
  | cons c0 rest ih =>
    intro c hc
    unfold cleanupComponents
    dsimp only
    cases hdel : TrialComponent.deleteOp fail (removeTrialComponent st n c0) c0
      with
    | ok st2 =>
      dsimp only
      rcases List.mem_cons.mp hc with hceq | hcrest
      · subst hceq; exact List.mem_cons_self _ _
      · simp only [List.mem_cons]
        exact Or.inr (Or.inr (Or.inr (ih st2 c hcrest)))
    | error e =>
      dsimp only
      rcases List.mem_cons.mp hc with hceq | hcrest
      · subst hceq; exact List.mem_cons_self _ _
      · simp only [List.mem_cons]
        exact Or.inr (Or.inr (ih (removeTrialComponent st n c0) c hcrest))

theorem cleanupComponents_trace_shape (fail : String → Option Err)
    (st : Registry) (n : String) (tcs : List String) :
    ∀ e ∈ (cleanupComponents fail st n tcs).2,
      (∃ c, e = Event.detach n c) ∨ (∃ c, e = Event.deleteComponent c) ∨
      (∃ c, e = Event.skipComponent c) ∨ e = Event.sleep := by
  induction tcs generalizing st with
  | nil => intro e he; exact absurd he (List.not_mem_nil e)
  | cons c0 rest ih =>
    intro e he
    unfold cleanupComponents at he
    dsimp only at he
    cases hdel : TrialComponent.deleteOp fail (removeTrialComponent st n c0) c0
      with
    | ok st2 =>
      rw [hdel] at he
      dsimp only at he
      rcases List.mem_cons.mp he with rfl | he1
      · exact Or.inl ⟨c0, rfl⟩
      rcases List.mem_cons.mp he1 with rfl | he2
      · exact Or.inr (Or.inl ⟨c0, rfl⟩)
      rcases List.mem_cons.mp he2 with rfl | he3
      · exact Or.inr (Or.inr (Or.inr rfl))
      · exact ih st2 e he3
    | error e0 =>
      rw [hdel] at he
      dsimp only at he
      rcases List.mem_cons.mp he with rfl | he1
      · exact Or.inl ⟨c0, rfl⟩
      rcases List.mem_cons.mp he1 with rfl | he2
      · exact Or.inr (Or.inr (Or.inl ⟨c0, rfl⟩))
      · exact ih (removeTrialComponent st n c0) e he2

theorem cleanupComponents_head_not_sleep (fail : String → Option Err)
    (st : Registry) (n : String) (tcs : List String) :
    ∀ e ∈ (cleanupComponents fail st n tcs).2.head?, isSleepEv e = false := by
  cases tcs with
  | nil => intro e he; exact absurd he (by simp [cleanupComponents])
  | cons c0 rest =>
    intro e he
    unfold cleanupComponents at he
    dsimp only at he
    cases hdel : TrialComponent.deleteOp fail (removeTrialComponent st n c0) c0
      with
    | ok st2 =>
      rw [hdel] at he
      simp only [List.head?_cons, Option.mem_def, Option.some.injEq] at he
      rw [← he]
      rfl
    | error e0 =>
      rw [hdel] at he
      simp only [List.head?_cons, Option.mem_def, Option.some.injEq] at he
      rw [← he]
      rfl

theorem cleanupComponents_chain (fail : String → Option Err) (st : Registry)
    (n : String) (tcs : List String) :
    List.Chain' (fun a b => isSleepEv b = true → isDeleteComponentEv a = true)
      (cleanupComponents fail st n tcs).2 := by
  induction tcs generalizing st with
  | nil => simp [cleanupComponents]
  | cons c0 rest ih =>
    unfold cleanupComponents
    dsimp only
    cases hdel : TrialComponent.deleteOp fail (removeTrialComponent st n c0) c0
      with
    | ok st2 =>
      dsimp only
      rw [List.chain'_cons', List.chain'_cons', List.chain'_cons']
      refine ⟨?_, ?_, ?_, ih st2⟩
      · intro y hy hsleep
        simp only [List.head?_cons, Option.mem_def, Option.some.injEq] at hy
        subst hy
        simp [isSleepEv] at hsleep
      · intro y hy hsleep
        rfl
      · intro y hy hsleep
        exact absurd hsleep
          (by rw [cleanupComponents_head_not_sleep fail st2 n rest y hy]; simp)
    | error e0 =>
      dsimp only
      rw [List.chain'_cons', List.chain'_cons']
      refine ⟨?_, ?_, ih (removeTrialComponent st n c0)⟩
      · intro y hy hsleep
        simp only [List.head?_cons, Option.mem_def, Option.some.injEq] at hy
        subst hy
        simp [isSleepEv] at hsleep
      · intro y hy hsleep
        exact absurd hsleep
          (by rw [cleanupComponents_head_not_sleep fail
            (removeTrialComponent st n c0) n rest y hy]; simp)

theorem noLater_of_all_not_p {p q : Event → Bool} {l : List Event}
    (h : l.all (fun e => !p e) = true) : noLater p q l = true := by
  induction l with
  | nil => rfl
  | cons e l ih =>
    rw [List.all_cons, Bool.and_eq_true] at h
    simp only [noLater, Bool.and_eq_true]
    exact ⟨by simp [h.1], ih h.2⟩

theorem noLater_append_of_all_not_p {p q : Event → Bool} {a b : List Event}
    (ha : a.all (fun e => !p e) = true) (hb : noLater p q b = true) :
    noLater p q (a ++ b) = true := by
  induction a with
  | nil => simpa using hb
  | cons e a ih =>
    rw [List.all_cons, Bool.and_eq_true] at ha
    simp only [List.cons_append, noLater, Bool.and_eq_true]
    exact ⟨by simp [ha.1], ih ha.2⟩

theorem noLater_append_of_all_not_q {p q : Event → Bool} {a b : List Event}
    (ha : noLater p q a = true) (hb : noLater p q b = true)
    (hq : b.all (fun e => !q e) = true) :
    noLater p q (a ++ b) = true := by
  induction a with
  | nil => simpa using hb
  | cons e a ih =>
    simp only [noLater, Bool.and_eq_true] at ha ⊢
    refine ⟨?_, ih ha.2⟩
    rcases Bool.or_eq_true_iff.mp ha.1 with h1 | h1
    · simp [h1]
    · simp only [List.append_eq, List.all_append]
      simp [h1, hq]

theorem Trial.loadOp_ok_mem {st : Registry} {m : String} {tr : Trial}
    (h : Trial.loadOp st m = .ok tr) : tr ∈ st.trials ∧ tr.name = m := by
  unfold Trial.loadOp at h
  cases hf : st.trials.find? (fun t => t.name == m) with
  | none => rw [hf] at h; exact absurd h (by simp)
  | some t0 =>
    rw [hf] at h
    have heq := Except.ok.inj h
    subst heq
    exact ⟨List.mem_of_find?_eq_some hf, by simpa using List.find?_some hf⟩

theorem Trial.loadOp_congr {st st' : Registry} (h : st.trials = st'.trials)
    (n : String) : Trial.loadOp st n = Trial.loadOp st' n := by
  unfold Trial.loadOp
  rw [h]

theorem Trial.deleteOp_ok_of_detached {st : Registry} {n : String}
    (h : ∀ tc ∈ st.components, n ∉ tc.trials) :
    Trial.deleteOp st n =
      .ok { st with trials := st.trials.filter (fun t => !(t.name == n)) } := by
  unfold Trial.deleteOp
  have hany : st.components.any (fun tc => tc.trials.contains n) = false := by
    rw [List.any_eq_false]
    intro tc htc
    simp [h tc htc]
  simp only [hany, Bool.false_eq_true, if_false]

theorem cleanupTrials_cons_err (fail : String → Option Err) (st : Registry)
    (m : String) (rest : List String) (e : Err)
    (hload : Trial.loadOp st m = .error e) :
    cleanupTrials fail st (m :: rest) = ⟨st, [], some e⟩ := by
  unfold cleanupTrials
  rw [hload]

theorem cleanupTrials_cons_ok (fail : String → Option Err) (st : Registry)
    (m : String) (rest : List String) (tr : Trial)
    (hload : Trial.loadOp st m = .ok tr) :
    cleanupTrials fail st (m :: rest) =
      ⟨(cleanupTrials fail (afterTrialStep fail st m) rest).state,
       (cleanupComponents fail st m (trialTcNames st m)).2 ++
         Event.deleteTrial m ::
           (cleanupTrials fail (afterTrialStep fail st m) rest).trace,
       (cleanupTrials fail (afterTrialStep fail st m) rest).err⟩ := by
  conv_lhs => rw [cleanupTrials]
  rw [hload]
  dsimp only
  rw [Trial.deleteOp_ok_of_detached (cleanupComponents_full_detach fail st m)]
  rfl

theorem afterTrialStep_trials (fail : String → Option Err) (st : Registry)
    (m : String) :
    (afterTrialStep fail st m).trials =
      st.trials.filter (fun t => !(t.name == m)) := by
  unfold afterTrialStep
  rw [cleanupComponents_trials]

theorem afterTrialStep_experiments (fail : String → Option Err) (st : Registry)
    (m : String) :
    (afterTrialStep fail st m).experiments = st.experiments := by
  unfold afterTrialStep
  exact cleanupComponents_experiments fail st m (trialTcNames st m)

theorem cleanupComponents_no_deleteTrial (fail : String → Option Err)
    (st : Registry) (n : String) (tcs : List String) :
    ∀ e ∈ (cleanupComponents fail st n tcs).2, isDeleteTrialEv e = false := by
  intro e he
  rcases cleanupComponents_trace_shape fail st n tcs e he with
    ⟨c, rfl⟩ | ⟨c, rfl⟩ | ⟨c, rfl⟩ | rfl <;> rfl

theorem cleanupComponents_no_deleteTrialOf (fail : String → Option Err)
    (st : Registry) (n : String) (tcs : List String) (t : String) :
    ∀ e ∈ (cleanupComponents fail st n tcs).2, isDeleteTrialOf t e = false := by
  intro e he
  rcases cleanupComponents_trace_shape fail st n tcs e he with
    ⟨c, rfl⟩ | ⟨c, rfl⟩ | ⟨c, rfl⟩ | rfl <;> rfl

theorem cleanupComponents_no_deleteExperiment (fail : String → Option Err)
    (st : Registry) (n : String) (tcs : List String) :
    ∀ e ∈ (cleanupComponents fail st n tcs).2, isDeleteExperimentEv e = false := by
  intro e he
  rcases cleanupComponents_trace_shape fail st n tcs e he with
    ⟨c, rfl⟩ | ⟨c, rfl⟩ | ⟨c, rfl⟩ | rfl <;> rfl

theorem cleanupComponents_no_detach_other (fail : String → Option Err)
    (st : Registry) (n : String) (tcs : List String) (t : String) (hne : t ≠ n) :
    ∀ e ∈ (cleanupComponents fail st n tcs).2, isDetachOf t e = false := by
  intro e he
  rcases cleanupComponents_trace_shape fail st n tcs e he with
    ⟨c, rfl⟩ | ⟨c, rfl⟩ | ⟨c, rfl⟩ | rfl
  · simp only [isDetachOf]
    exact beq_eq_false_iff_ne.mpr (Ne.symm hne)
  · rfl
  · rfl
  · rfl

theorem cleanupTrials_trace_shape (fail : String → Option Err)
    (names : List String) (st : Registry) :
    ∀ e ∈ (cleanupTrials fail st names).trace,
      (∃ n c, e = Event.detach n c) ∨ (∃ c, e = Event.deleteComponent c) ∨
      (∃ c, e = Event.skipComponent c) ∨ e = Event.sleep ∨
      (∃ t, e = Event.deleteTrial t) := by
  induction names generalizing st with
  | nil => intro e he; exact absurd he (by simp [cleanupTrials])
  | cons m rest ih =>
    intro e he
    cases hload : Trial.loadOp st m with
    | error e0 =>
      rw [cleanupTrials_cons_err fail st m rest e0 hload] at he
      exact absurd he (by simp)
    | ok tr =>
      rw [cleanupTrials_cons_ok fail st m rest tr hload] at he
      dsimp only at he
      rw [List.mem_append] at he
      rcases he with h1 | h2
      · rcases cleanupComponents_trace_shape fail st m (trialTcNames st m) e h1
          with ⟨c, rfl⟩ | ⟨c, rfl⟩ | ⟨c, rfl⟩ | rfl
        · exact Or.inl ⟨m, c, rfl⟩
        · exact Or.inr (Or.inl ⟨c, rfl⟩)
        · exact Or.inr (Or.inr (Or.inl ⟨c, rfl⟩))
        · exact Or.inr (Or.inr (Or.inr (Or.inl rfl)))
      · rcases List.mem_cons.mp h2 with rfl | h3
        · exact Or.inr (Or.inr (Or.inr (Or.inr ⟨m, rfl⟩)))
        · exact ih (afterTrialStep fail st m) e h3

theorem cleanupTrials_no_deleteExperiment (fail : String → Option Err)
    (names : List String) (st : Registry) :
    ∀ e ∈ (cleanupTrials fail st names).trace,
      isDeleteExperimentEv e = false := by
  intro e he
  rcases cleanupTrials_trace_shape fail names st e he with
    ⟨n, c, rfl⟩ | ⟨c, rfl⟩ | ⟨c, rfl⟩ | rfl | ⟨t, rfl⟩ <;> rfl

theorem cleanupTrials_no_detach_deleted (fail : String → Option Err)
    (names : List String) (st : Registry) (tn : String)
    (habs : ∀ t ∈ st.trials, t.name ≠ tn) :
    ∀ e ∈ (cleanupTrials fail st names).trace, isDetachOf tn e = false := by
  induction names generalizing st with
  | nil => intro e he; exact absurd he (by simp [cleanupTrials])
  | cons m rest ih =>
    intro e he
    cases hload : Trial.loadOp st m with
    | error e0 =>
      rw [cleanupTrials_cons_err fail st m rest e0 hload] at he
      exact absurd he (by simp)
    | ok tr =>
      have hmne : tn ≠ m := by
        obtain ⟨hmem, hname⟩ := Trial.loadOp_ok_mem hload
        intro hextra
        exact habs tr hmem (hname.trans hextra.symm)
      rw [cleanupTrials_cons_ok fail st m rest tr hload] at he
      dsimp only at he
      rw [List.mem_append] at he
      rcases he with h1 | h2
      · exact cleanupComponents_no_detach_other fail st m (trialTcNames st m) tn
          hmne e h1
      · rcases List.mem_cons.mp h2 with rfl | h3
        · rfl
        · refine ih (afterTrialStep fail st m) ?_ e h3
          intro t ht
          rw [afterTrialStep_trials] at ht
          exact habs t (List.mem_of_mem_filter ht)

theorem cleanupTrials_noLater_detach (fail : String → Option Err) (t : String)
    (names : List String) (st : Registry) :
    noLater (isDeleteTrialOf t) (isDetachOf t)
      (cleanupTrials fail st names).trace = true := by
  induction names generalizing st with
  | nil => rfl
  | cons m rest ih =>
    cases hload : Trial.loadOp st m with
    | error e0 => rw [cleanupTrials_cons_err fail st m rest e0 hload]; rfl
    | ok tr =>
      rw [cleanupTrials_cons_ok fail st m rest tr hload]
      dsimp only
      apply noLater_append_of_all_not_p
      · rw [List.all_eq_true]
        intro e he
        rw [Bool.not_eq_eq_eq_not, Bool.not_true]
        exact cleanupComponents_no_deleteTrialOf fail st m (trialTcNames st m)
          t e he
      · simp only [noLater, Bool.and_eq_true]
        refine ⟨?_, ih (afterTrialStep fail st m)⟩
        by_cases hmt : m = t
        · subst hmt
          rw [Bool.or_eq_true]
          right
          rw [List.all_eq_true]
          intro e he
          rw [Bool.not_eq_eq_eq_not, Bool.not_true]
          refine cleanupTrials_no_detach_deleted fail rest
            (afterTrialStep fail st m) m ?_ e he
          intro tr' htr'
          rw [afterTrialStep_trials] at htr'
          have := List.of_mem_filter htr'
          simpa using this
        · rw [Bool.or_eq_true]
          left
          simp only [isDeleteTrialOf, Bool.not_eq_eq_eq_not, Bool.not_true]
          exact beq_eq_false_iff_ne.mpr hmt

theorem cleanupTrials_head_not_sleep (fail : String → Option Err)
    (names : List String) (st : Registry) :
    ∀ e ∈ (cleanupTrials fail st names).trace.head?, isSleepEv e = false := by
  induction names generalizing st with
  | nil => intro e he; exact absurd he (by simp [cleanupTrials])
  | cons m rest ih =>
    intro e he
    cases hload : Trial.loadOp st m with
    | error e0 =>
      rw [cleanupTrials_cons_err fail st m rest e0 hload] at he
      exact absurd he (by simp)
    | ok tr =>
      rw [cleanupTrials_cons_ok fail st m rest tr hload] at he
      dsimp only at he
      rcases hevs : (cleanupComponents fail st m (trialTcNames st m)).2 with
        _ | ⟨e0, evs⟩
      · rw [hevs] at he
        simp only [List.nil_append, List.head?_cons, Option.mem_def,
          Option.some.injEq] at he
        rw [← he]
        rfl
      · rw [hevs] at he
        simp only [List.cons_append, List.head?_cons, Option.mem_def,
          Option.some.injEq] at he
        rw [← he]
        exact cleanupComponents_head_not_sleep fail st m (trialTcNames st m) e0
          (by rw [hevs]; rfl)

theorem cleanupTrials_chain (fail : String → Option Err) (names : List String)
    (st : Registry) :
    List.Chain' (fun a b => isSleepEv b = true → isDeleteComponentEv a = true)
      (cleanupTrials fail st names).trace := by
  induction names generalizing st with
  | nil => simp [cleanupTrials]
  | cons m rest ih =>
    cases hload : Trial.loadOp st m with
    | error e0 => rw [cleanupTrials_cons_err fail st m rest e0 hload]; simp
    | ok tr =>
      rw [cleanupTrials_cons_ok fail st m rest tr hload]
      dsimp only
      rw [List.chain'_append]
      refine ⟨cleanupComponents_chain fail st m (trialTcNames st m), ?_, ?_⟩
      · rw [List.chain'_cons']
        refine ⟨?_, ih (afterTrialStep fail st m)⟩
        intro y hy hsleep
        exact absurd hsleep (by
          rw [cleanupTrials_head_not_sleep fail rest (afterTrialStep fail st m)
            y hy]
          simp)
      · intro x hx y hy
        simp only [List.head?_cons, Option.mem_def, Option.some.injEq] at hy
        rw [← hy]
        intro hsleep
        simp [isSleepEv] at hsleep

theorem cleanupTrials_indep (fail fail' : String → Option Err)
    (names : List String) (st st' : Registry)
    (ht : st.trials = st'.trials) (he : st.experiments = st'.experiments) :
    (cleanupTrials fail st names).err = (cleanupTrials fail' st' names).err ∧
    (cleanupTrials fail st names).state.trials =
      (cleanupTrials fail' st' names).state.trials ∧
    (cleanupTrials fail st names).state.experiments =
      (cleanupTrials fail' st' names).state.experiments := by
  induction names generalizing st st' with
  | nil => exact ⟨rfl, ht, he⟩
  | cons m rest ih =>
    have hl : Trial.loadOp st m = Trial.loadOp st' m := Trial.loadOp_congr ht m
    cases hload : Trial.loadOp st' m with
    | error e0 =>
      rw [cleanupTrials_cons_err fail st m rest e0 (hl.trans hload),
          cleanupTrials_cons_err fail' st' m rest e0 hload]
      exact ⟨rfl, ht, he⟩
    | ok tr =>
      rw [cleanupTrials_cons_ok fail st m rest tr (hl.trans hload),
          cleanupTrials_cons_ok fail' st' m rest tr hload]
      dsimp only
      exact ih (afterTrialStep fail st m) (afterTrialStep fail' st' m)
        (by rw [afterTrialStep_trials, afterTrialStep_trials, ht])
        (by rw [afterTrialStep_experiments, afterTrialStep_experiments, he])

theorem cleanup_err_indep (fail fail' : String → Option Err) (st : Registry)
    (expName : String) :
    (cleanup fail st expName).err = (cleanup fail' st expName).err := by
  unfold cleanup
  by_cases hexp : st.experiments.any (fun e => e.name == expName) = true
  · rw [if_pos hexp, if_pos hexp]
    dsimp only
    obtain ⟨herr, htr, hex⟩ := cleanupTrials_indep fail fail'
      (expTrialNames st expName) st st rfl rfl
    cases h1 : (cleanupTrials fail' st (expTrialNames st expName)).err with
    | some e =>
      rw [herr, h1]
    | none =>
      rw [herr, h1]
      dsimp only
      unfold Experiment.deleteOp
      rw [htr]
      by_cases hcond : (cleanupTrials fail' st
          (expTrialNames st expName)).state.trials.any
          (fun t => t.experimentName == expName) = true
      · rw [if_pos hcond, if_pos hcond]
      · rw [if_neg hcond, if_neg hcond]
  · rw [if_neg hexp, if_neg hexp]

theorem afterTrialStep_components (fail : String → Option Err) (st : Registry)
    (m : String) :
    (afterTrialStep fail st m).components =
      (cleanupComponents fail st m (trialTcNames st m)).1.components := rfl

theorem removeTrialComponent_preserves_assoc {st : Registry} {n tn c : String}
    (c0 : String) (hne : tn ≠ n)
    (h : ∃ tc ∈ st.components, tc.name = c ∧ tn ∈ tc.trials) :
    ∃ tc ∈ (removeTrialComponent st n c0).components,
      tc.name = c ∧ tn ∈ tc.trials := by
  obtain ⟨tc, htc, hname, hmem⟩ := h
  unfold removeTrialComponent
  dsimp only
  refine ⟨_, List.mem_map_of_mem _ htc, ?_⟩
  by_cases hn : tc.name == c0
  · simp only [hn, if_true]
    exact ⟨hname, List.mem_filter.mpr ⟨hmem, by simp [hne]⟩⟩
  · simp only [hn]
    rw [if_neg (by simp_all)]
    exact ⟨hname, hmem⟩

theorem TrialComponent.deleteOp_ok_any {fail : String → Option Err}
    {st : Registry} {c0 : String} {res : Registry}
    (h : TrialComponent.deleteOp fail st c0 = .ok res) :
    st.components.any (fun tc => tc.name == c0 && !tc.trials.isEmpty) = false := by
  unfold TrialComponent.deleteOp at h
  split at h
  · exact absurd h (by simp)
  · split at h
    · exact absurd h (by simp)
    · next hc => simpa using hc

theorem cleanupComponents_preserves_assoc (fail : String → Option Err)
    (st : Registry) (n : String) (tcs : List String) (tn c : String)
    (hne : tn ≠ n)
    (h : ∃ tc ∈ st.components, tc.name = c ∧ tn ∈ tc.trials) :
    ∃ tc ∈ (cleanupComponents fail st n tcs).1.components,
      tc.name = c ∧ tn ∈ tc.trials := by
  induction tcs generalizing st with
  | nil => exact h
  | cons c0 rest ih =>
    unfold cleanupComponents
    dsimp only
    have h1 := removeTrialComponent_preserves_assoc c0 hne h
    cases hdel : TrialComponent.deleteOp fail (removeTrialComponent st n c0) c0
      with
    | ok st2 =>
      dsimp only
      apply ih
      obtain ⟨tc, htc, hname, hmem⟩ := h1
      have hany := TrialComponent.deleteOp_ok_any hdel
      have hne0 : (tc.name == c0) = false := by
        rcases Bool.eq_false_or_eq_true (tc.name == c0) with htt | hf
        case inr => exact hf
        · have hx := List.any_eq_false.mp hany tc htc
          rw [htt] at hx
          simp only [Bool.true_and, Bool.not_eq_true', Bool.not_eq_false] at hx
          rw [List.isEmpty_iff] at hx
          rw [hx] at hmem
          exact absurd hmem (List.not_mem_nil tn)
      rw [TrialComponent.deleteOp_ok_state hdel]
      exact ⟨tc, List.mem_filter.mpr ⟨htc, by simp [hne0]⟩, hname, hmem⟩
    | error e =>
      dsimp only
      exact ih (removeTrialComponent st n c0) h1

theorem cleanupTrials_detach_before_delete (fail : String → Option Err)
    (names : List String) (st : Registry) (tn c : String)
    (hassoc : ∃ tc ∈ st.components, tc.name = c ∧ tn ∈ tc.trials)
    (hdel : Event.deleteTrial tn ∈ (cleanupTrials fail st names).trace) :
    Event.detach tn c ∈ (cleanupTrials fail st names).trace := by
  induction names generalizing st with
  | nil => exact absurd hdel (by simp [cleanupTrials])
  | cons m rest ih =>
    cases hload : Trial.loadOp st m with
    | error e0 =>
      rw [cleanupTrials_cons_err fail st m rest e0 hload] at hdel
      exact absurd hdel (by simp)
    | ok tr =>
      rw [cleanupTrials_cons_ok fail st m rest tr hload] at hdel ⊢
      dsimp only at hdel ⊢
      rw [List.mem_append] at hdel ⊢
      by_cases hmt : tn = m
      · subst hmt
        left
        obtain ⟨tc, htc, hname, hmem⟩ := hassoc
        have hc : c ∈ trialTcNames st tn := by
          unfold trialTcNames
          rw [← hname]
          exact List.mem_map_of_mem _
            (List.mem_filter.mpr ⟨htc, by simpa using hmem⟩)
        exact cleanupComponents_detach_mem fail st tn (trialTcNames st tn) c hc
      · rcases hdel with h1 | h2
        · have hx := cleanupComponents_no_deleteTrial fail st m
            (trialTcNames st m) _ h1
          simp [isDeleteTrialEv] at hx
        · rcases List.mem_cons.mp h2 with heq | h3
          · exact absurd (Event.deleteTrial.inj heq) hmt
          · right
            refine List.mem_cons_of_mem _ (ih (afterTrialStep fail st m) ?_ h3)
            rw [afterTrialStep_components]
            exact cleanupComponents_preserves_assoc fail st m (trialTcNames st m)
              tn c hmt hassoc

theorem Experiment.deleteOp_removes_record {st : Registry} {n : String}
    {st' : Registry} (h : Experiment.deleteOp st n = .ok st') :
    st' = { st with
      experiments := st.experiments.filter (fun e => !(e.name == n)) } := by
  unfold Experiment.deleteOp at h
  split at h
  · exact absurd h (by simp)
  · exact (Except.ok.inj h).symm

theorem any_filter_self_false {α : Type} (l : List α) (p : α → Bool) :
    (l.filter (fun x => !(p x))).any p = false := by
  rw [List.any_eq_false]
  intro x hx
  have hm := List.of_mem_filter hx
  simp only [Bool.not_eq_true'] at hm
  simp [hm]

theorem cleanup_trace_cases (fail : String → Option Err) (st : Registry)
    (expName : String) :
    (cleanup fail st expName).trace = [] ∨
    (cleanup fail st expName).trace =
      (cleanupTrials fail st (expTrialNames st expName)).trace ∨
    (cleanup fail st expName).trace =
      (cleanupTrials fail st (expTrialNames st expName)).trace ++
        [Event.deleteExperiment expName] := by
  unfold cleanup
  by_cases hexp : st.experiments.any (fun e => e.name == expName) = true
  · rw [if_pos hexp]
    dsimp only
    cases herr : (cleanupTrials fail st (expTrialNames st expName)).err with
    | some e => exact Or.inr (Or.inl rfl)
    | none =>
      dsimp only
      cases hdel : Experiment.deleteOp
          (cleanupTrials fail st (expTrialNames st expName)).state expName with
      | ok st2 => exact Or.inr (Or.inr rfl)
      | error e => exact Or.inr (Or.inl rfl)
  · rw [if_neg hexp]
    exact Or.inl rfl

theorem cleanup_absent (fail : String → Option Err) (st : Registry)
    (expName : String)
    (h : st.experiments.any (fun e => e.name == expName) = false) :
    cleanup fail st expName = ⟨st, [], some Err.NotFound⟩ := by
  unfold cleanup
  rw [if_neg (by simp [h])]

theorem cleanup_success_removes_experiment (fail : String → Option Err)
    (st : Registry) (expName : String)
    (h : (cleanup fail st expName).err = none) :
    (cleanup fail st expName).state.experiments.any
      (fun e => e.name == expName) = false := by
  unfold cleanup at h ⊢
  by_cases hexp : st.experiments.any (fun e => e.name == expName) = true
  · rw [if_pos hexp] at h ⊢
    dsimp only at h ⊢
    cases herr : (cleanupTrials fail st (expTrialNames st expName)).err with
    | some e =>
      rw [herr] at h
      exact absurd h (by simp)
    | none =>
      rw [herr] at h
      dsimp only at h ⊢
      cases hdel : Experiment.deleteOp
          (cleanupTrials fail st (expTrialNames st expName)).state expName with
      | error e =>
        rw [hdel] at h
        exact absurd h (by simp)
      | ok st2 =>
        dsimp only
        rw [Experiment.deleteOp_removes_record hdel]
        exact any_filter_self_false _ _
  · rw [if_neg hexp] at h
    exact absurd h (by simp)

theorem cleanupTrials_err_none_deletes_all (fail : String → Option Err)
    (names : List String) (st : Registry)
    (h : (cleanupTrials fail st names).err = none) :
    ∀ m ∈ names, Event.deleteTrial m ∈ (cleanupTrials fail st names).trace := by
  induction names generalizing st with
  | nil => intro m hm; exact absurd hm (List.not_mem_nil m)
  | cons m0 rest ih =>
    intro m hm
    cases hload : Trial.loadOp st m0 with
    | error e0 =>
      rw [cleanupTrials_cons_err fail st m0 rest e0 hload] at h
      exact absurd h (by simp)
    | ok tr =>
      rw [cleanupTrials_cons_ok fail st m0 rest tr hload] at h ⊢
      dsimp only at h ⊢
      rw [List.mem_append]
      rcases List.mem_cons.mp hm with rfl | hmr
      · exact Or.inr (List.mem_cons_self _ _)
      · exact Or.inr (List.mem_cons_of_mem _
          (ih (afterTrialStep fail st m0) h m hmr))

theorem cleanup_deletes_all_trials (fail : String → Option Err) (st : Registry)
    (expName : String)
    (hexpdel : Event.deleteExperiment expName ∈ (cleanup fail st expName).trace) :
    ∀ t ∈ st.trials, t.experimentName = expName →
      Event.deleteTrial t.name ∈ (cleanup fail st expName).trace := by
  intro t ht hexp2
  unfold cleanup at hexpdel ⊢
  by_cases hexp : st.experiments.any (fun e => e.name == expName) = true
  · rw [if_pos hexp] at hexpdel ⊢
    dsimp only at hexpdel ⊢
    cases herr : (cleanupTrials fail st (expTrialNames st expName)).err with
    | some e =>
      rw [herr] at hexpdel
      dsimp only at hexpdel
      have hx := cleanupTrials_no_deleteExperiment fail
        (expTrialNames st expName) st _ hexpdel
      simp [isDeleteExperimentEv] at hx
    | none =>
      rw [herr] at hexpdel
      dsimp only at hexpdel ⊢
      cases hdel : Experiment.deleteOp
          (cleanupTrials fail st (expTrialNames st expName)).state expName with
      | error e =>
        rw [hdel] at hexpdel
        dsimp only at hexpdel
        have hx := cleanupTrials_no_deleteExperiment fail
          (expTrialNames st expName) st _ hexpdel
        simp [isDeleteExperimentEv] at hx
      | ok st2 =>
        rw [List.mem_append]
        left
        refine cleanupTrials_err_none_deletes_all fail
          (expTrialNames st expName) st herr t.name ?_
        unfold expTrialNames
        exact List.mem_map_of_mem _ (List.mem_filter.mpr ⟨ht, by simp [hexp2]⟩)
  · rw [if_neg hexp] at hexpdel
    exact absurd hexpdel (by simp)

/-- C5: the cleanup procedure preserves the deletion-ordering invariant.  On
any cleanup trace: no detach of a component from trial `t` occurs after the
deletion of trial `t` (together with the third conjunct, every associated
component is detached strictly before its trial's deletion); no trial
deletion occurs after the experiment's deletion; for every component
associated with a trial `tn` in the initial registry, if the trace deletes
trial `tn` then it also contains the detach of that component from `tn`;
and if the trace deletes the experiment, then every trial of the experiment
in the initial registry has its deletion in the trace (hence, with the
second conjunct, strictly before the experiment's deletion). -/
theorem cleanup_deletion_ordering (fail : String → Option Err) (st : Registry)
    (expName : String) :
    (∀ t, noLater (isDeleteTrialOf t) (isDetachOf t)
      (cleanup fail st expName).trace = true) ∧
    noLater isDeleteExperimentEv isDeleteTrialEv
      (cleanup fail st expName).trace = true ∧
    (∀ tn c tc, tc ∈ st.components → tc.name = c → tn ∈ tc.trials →
      Event.deleteTrial tn ∈ (cleanup fail st expName).trace →
      Event.detach tn c ∈ (cleanup fail st expName).trace) ∧
    (Event.deleteExperiment expName ∈ (cleanup fail st expName).trace →
      ∀ t ∈ st.trials, t.experimentName = expName →
        Event.deleteTrial t.name ∈ (cleanup fail st expName).trace) := by
  have hmain : (∀ t, noLater (isDeleteTrialOf t) (isDetachOf t)
      (cleanup fail st expName).trace = true) ∧
    noLater isDeleteExperimentEv isDeleteTrialEv
      (cleanup fail st expName).trace = true ∧
    (∀ tn c tc, tc ∈ st.components → tc.name = c → tn ∈ tc.trials →
      Event.deleteTrial tn ∈ (cleanup fail st expName).trace →
      Event.detach tn c ∈ (cleanup fail st expName).trace) := ?_
  · exact ⟨hmain.1, hmain.2.1, hmain.2.2,
      cleanup_deletes_all_trials fail st expName⟩
  rcases cleanup_trace_cases fail st expName with h | h | h <;> rw [h]
  · exact ⟨fun t => rfl, rfl, fun tn c tc _ _ _ hmem => absurd hmem (by simp)⟩
  · refine ⟨fun t => cleanupTrials_noLater_detach fail t _ st, ?_, ?_⟩
    · refine noLater_of_all_not_p ?_
      rw [List.all_eq_true]
      intro e he
      rw [Bool.not_eq_eq_eq_not, Bool.not_true]
      exact cleanupTrials_no_deleteExperiment fail _ st e he
    · intro tn c tc htc hname hmem hdel
      exact cleanupTrials_detach_before_delete fail _ st tn c
        ⟨tc, htc, hname, hmem⟩ hdel
  · refine ⟨?_, ?_, ?_⟩
    · intro t
      refine noLater_append_of_all_not_q
        (cleanupTrials_noLater_detach fail t _ st) rfl rfl
    · refine noLater_append_of_all_not_p ?_ rfl
      rw [List.all_eq_true]
      intro e he
      rw [Bool.not_eq_eq_eq_not, Bool.not_true]
      exact cleanupTrials_no_deleteExperiment fail _ st e he
    · intro tn c tc htc hname hmem hdel
      rw [List.mem_append] at hdel ⊢
      rcases hdel with hdel | hdel
      · exact Or.inl (cleanupTrials_detach_before_delete fail _ st tn c
          ⟨tc, htc, hname, hmem⟩ hdel)
      · rw [List.mem_singleton] at hdel
        exact absurd hdel (by simp)

/-- Witness for C5: on a concrete one-trial registry, cleanup satisfies the
ordering predicate, detaches the component of the trial it deletes, and
deletes the experiment's trial. -/
theorem cleanup_deletion_ordering_witness :
    noLater (isDeleteTrialOf "run-1") (isDetachOf "run-1")
      (cleanup noExternalFailure
        ⟨[⟨"exp-1", "d"⟩], [⟨"run-1", "exp-1", 0⟩],
         [⟨"job-a", "Training", "arn:a", 1, ["run-1"]⟩]⟩ "exp-1").trace = true ∧
    Event.detach "run-1" "job-a" ∈
      (cleanup noExternalFailure
        ⟨[⟨"exp-1", "d"⟩], [⟨"run-1", "exp-1", 0⟩],
         [⟨"job-a", "Training", "arn:a", 1, ["run-1"]⟩]⟩ "exp-1").trace ∧
    Event.deleteTrial "run-1" ∈
      (cleanup noExternalFailure
        ⟨[⟨"exp-1", "d"⟩], [⟨"run-1", "exp-1", 0⟩],
         [⟨"job-a", "Training", "arn:a", 1, ["run-1"]⟩]⟩ "exp-1").trace := by
  have h := cleanup_deletion_ordering noExternalFailure
    ⟨[⟨"exp-1", "d"⟩], [⟨"run-1", "exp-1", 0⟩],
     [⟨"job-a", "Training", "arn:a", 1, ["run-1"]⟩]⟩ "exp-1"
  exact ⟨h.1 "run-1",
    h.2.2.1 "run-1" "job-a" ⟨"job-a", "Training", "arn:a", 1, ["run-1"]⟩
      (by simp) rfl (by simp) (by decide),
    h.2.2.2 (by decide) ⟨"run-1", "exp-1", 0⟩ (by simp) rfl⟩

/-- C8: cleanup is idempotent.  If a cleanup run succeeds, a second cleanup
run on the resulting registry (under any failure oracle) performs no
deletion at all — it returns the registry unchanged with an empty action
trace — and fails with `NotFound`. -/
theorem cleanup_idempotent (fail fail' : String → Option Err) (st : Registry)
    (expName : String) (h : (cleanup fail st expName).err = none) :
    cleanup fail' (cleanup fail st expName).state expName =
      ⟨(cleanup fail st expName).state, [], some Err.NotFound⟩ :=
  cleanup_absent fail' (cleanup fail st expName).state expName
    (cleanup_success_removes_experiment fail st expName h)

/-- Witness for C8 at a concrete registry whose first cleanup succeeds. -/
theorem cleanup_idempotent_witness :
    cleanup noExternalFailure
      (cleanup noExternalFailure
        ⟨[⟨"exp-1", "d"⟩], [⟨"run-1", "exp-1", 0⟩],
         [⟨"job-a", "Training", "arn:a", 1, ["run-1"]⟩]⟩ "exp-1").state
      "exp-1" =
    ⟨(cleanup noExternalFailure
        ⟨[⟨"exp-1", "d"⟩], [⟨"run-1", "exp-1", 0⟩],
         [⟨"job-a", "Training", "arn:a", 1, ["run-1"]⟩]⟩ "exp-1").state,
     [], some Err.NotFound⟩ :=
  cleanup_idempotent noExternalFailure noExternalFailure
    ⟨[⟨"exp-1", "d"⟩], [⟨"run-1", "exp-1", 0⟩],
     [⟨"job-a", "Training", "arn:a", 1, ["run-1"]⟩]⟩ "exp-1" (by decide)

/-- C10: the bare `except:` around `tc.delete()` catches every exception.
For any failure oracle: every sleep in the cleanup trace immediately follows
a successful component deletion (so the fixed delay is skipped for a failed
deletion); the component loop still detaches every listed component
(cleanup proceeds past failures); and the error outcome of cleanup is the
same as under an oracle that never fails, i.e. no component-deletion error
propagates to the caller. -/
theorem cleanup_catches_component_errors (fail : String → Option Err)
    (st : Registry) (expName trialName : String) (tcs : List String) :
    SleepWellPlaced (cleanup fail st expName).trace ∧
    (∀ c ∈ tcs, Event.detach trialName c ∈
      (cleanupComponents fail st trialName tcs).2) ∧
    (cleanup fail st expName).err = (cleanup noExternalFailure st expName).err := by
  refine ⟨?_, cleanupComponents_detach_mem fail st trialName tcs,
    cleanup_err_indep fail noExternalFailure st expName⟩
  rcases cleanup_trace_cases fail st expName with h | h | h <;> rw [h]
  · exact ⟨by simp, by simp⟩
  · exact ⟨cleanupTrials_head_not_sleep fail _ st, cleanupTrials_chain fail _ st⟩
  · constructor
    · intro e he
      rcases hevs : (cleanupTrials fail st (expTrialNames st expName)).trace with
        _ | ⟨e0, evs⟩
      · rw [hevs] at he
        simp only [List.nil_append, List.head?_cons, Option.mem_def,
          Option.some.injEq] at he
        rw [← he]
        rfl
      · rw [hevs] at he
        simp only [List.cons_append, List.head?_cons, Option.mem_def,
          Option.some.injEq] at he
        rw [← he]
        exact cleanupTrials_head_not_sleep fail _ st e0 (by rw [hevs]; rfl)
    · rw [List.chain'_append]
      refine ⟨cleanupTrials_chain fail _ st, by simp, ?_⟩
      intro x hx y hy
      simp only [List.head?_cons, Option.mem_def, Option.some.injEq] at hy
      rw [← hy]
      intro hsleep
      simp [isSleepEv] at hsleep

/-- Witness for C10: a concrete run in which deleting `job-a` raises a
transient platform error; the loop still reaches `job-b` and the cleanup
outcome matches the failure-free outcome. -/
theorem cleanup_catches_component_errors_witness :
    SleepWellPlaced (cleanup
      (fun c => if c = "job-a" then some Err.TransientPlatformError else none)
      ⟨[⟨"exp-1", "d"⟩], [⟨"run-1", "exp-1", 0⟩],
       [⟨"job-a", "Training", "arn:a", 1, ["run-1"]⟩,
        ⟨"job-b", "Transform", "arn:b", 2, ["run-1"]⟩]⟩ "exp-1").trace ∧
    Event.detach "run-1" "job-b" ∈
      (cleanupComponents
        (fun c => if c = "job-a" then some Err.TransientPlatformError else none)
        ⟨[⟨"exp-1", "d"⟩], [⟨"run-1", "exp-1", 0⟩],
         [⟨"job-a", "Training", "arn:a", 1, ["run-1"]⟩,
          ⟨"job-b", "Transform", "arn:b", 2, ["run-1"]⟩]⟩ "run-1"
        ["job-a", "job-b"]).2 ∧
    (cleanup
      (fun c => if c = "job-a" then some Err.TransientPlatformError else none)
      ⟨[⟨"exp-1", "d"⟩], [⟨"run-1", "exp-1", 0⟩],
       [⟨"job-a", "Training", "arn:a", 1, ["run-1"]⟩,
        ⟨"job-b", "Transform", "arn:b", 2, ["run-1"]⟩]⟩ "exp-1").err =
    (cleanup noExternalFailure
      ⟨[⟨"exp-1", "d"⟩], [⟨"run-1", "exp-1", 0⟩],
       [⟨"job-a", "Training", "arn:a", 1, ["run-1"]⟩,
        ⟨"job-b", "Transform", "arn:b", 2, ["run-1"]⟩]⟩ "exp-1").err := by
  have h := cleanup_catches_component_errors
    (fun c => if c = "job-a" then some Err.TransientPlatformError else none)
    ⟨[⟨"exp-1", "d"⟩], [⟨"run-1", "exp-1", 0⟩],
     [⟨"job-a", "Training", "arn:a", 1, ["run-1"]⟩,
      ⟨"job-b", "Transform", "arn:b", 2, ["run-1"]⟩]⟩ "exp-1" "run-1"
    ["job-a", "job-b"]
  exact ⟨h.1, h.2.1 "job-b" (by simp), h.2.2⟩

/-- C4 counterexample: `AssociatedElsewhere` is not the only error the
cleanup recovers from.  On a concrete registry where deleting `job-a` raises
`TransientPlatformError`, cleanup skips the deletion, continues with
`job-b`, and completes without error — the bare `except:` in the source
catches every exception, not only the associated-elsewhere case. -/
theorem cleanup_recovers_from_any_error :
    (cleanup
      (fun c => if c = "job-a" then some Err.TransientPlatformError else none)
      ⟨[⟨"exp-1", "d"⟩], [⟨"run-1", "exp-1", 0⟩],
       [⟨"job-a", "Training", "arn:a", 1, ["run-1"]⟩,
        ⟨"job-b", "Transform", "arn:b", 2, ["run-1"]⟩]⟩ "exp-1").err = none ∧
    Event.skipComponent "job-a" ∈
      (cleanup
        (fun c => if c = "job-a" then some Err.TransientPlatformError else none)
        ⟨[⟨"exp-1", "d"⟩], [⟨"run-1", "exp-1", 0⟩],
         [⟨"job-a", "Training", "arn:a", 1, ["run-1"]⟩,
          ⟨"job-b", "Transform", "arn:b", 2, ["run-1"]⟩]⟩ "exp-1").trace ∧
    Event.deleteComponent "job-b" ∈
      (cleanup
        (fun c => if c = "job-a" then some Err.TransientPlatformError else none)
        ⟨[⟨"exp-1", "d"⟩], [⟨"run-1", "exp-1", 0⟩],
         [⟨"job-a", "Training", "arn:a", 1, ["run-1"]⟩,
          ⟨"job-b", "Transform", "arn:b", 2, ["run-1"]⟩]⟩ "exp-1").trace := by
  decide

/-- C4 amended: if the deletion of a trial component fails with any error —
`AssociatedElsewhere` included — the deletion is skipped (the loop records a
skip and carries on from the detached state with the remaining components)
and the failure is not fatal: cleanup's error outcome is identical to that
of a run in which no external deletion error occurs. -/
theorem cleanup_component_error_skipped (fail : String → Option Err)
    (st : Registry) (expName n c : String) (rest : List String) (e : Err)
    (hfail : TrialComponent.deleteOp fail (removeTrialComponent st n c) c =
      .error e) :
    cleanupComponents fail st n (c :: rest) =
      ((cleanupComponents fail (removeTrialComponent st n c) n rest).1,
       Event.detach n c :: Event.skipComponent c ::
         (cleanupComponents fail (removeTrialComponent st n c) n rest).2) ∧
    (cleanup fail st expName).err =
      (cleanup noExternalFailure st expName).err := by
  refine ⟨?_, cleanup_err_indep fail noExternalFailure st expName⟩
  conv_lhs => rw [cleanupComponents]
  dsimp only
  rw [hfail]

/-- Witness for the amended C4: deleting `job-a` fails with
`TransientPlatformError`; the step is recorded as a skip and cleanup's error
outcome matches the failure-free run. -/
theorem cleanup_component_error_skipped_witness :
    cleanupComponents
      (fun c => if c = "job-a" then some Err.TransientPlatformError else none)
      ⟨[⟨"exp-1", "d"⟩], [⟨"run-1", "exp-1", 0⟩],
       [⟨"job-a", "Training", "arn:a", 1, ["run-1"]⟩]⟩ "run-1"
      ["job-a"] =
      ((cleanupComponents
        (fun c => if c = "job-a" then some Err.TransientPlatformError else none)
        (removeTrialComponent
          ⟨[⟨"exp-1", "d"⟩], [⟨"run-1", "exp-1", 0⟩],
           [⟨"job-a", "Training", "arn:a", 1, ["run-1"]⟩]⟩ "run-1" "job-a")
        "run-1" []).1,
       Event.detach "run-1" "job-a" :: Event.skipComponent "job-a" ::
         (cleanupComponents
          (fun c => if c = "job-a" then some Err.TransientPlatformError else none)
          (removeTrialComponent
            ⟨[⟨"exp-1", "d"⟩], [⟨"run-1", "exp-1", 0⟩],
             [⟨"job-a", "Training", "arn:a", 1, ["run-1"]⟩]⟩ "run-1" "job-a")
          "run-1" []).2) ∧
    (cleanup
      (fun c => if c = "job-a" then some Err.TransientPlatformError else none)
      ⟨[⟨"exp-1", "d"⟩], [⟨"run-1", "exp-1", 0⟩],
       [⟨"job-a", "Training", "arn:a", 1, ["run-1"]⟩]⟩ "exp-1").err =
    (cleanup noExternalFailure
      ⟨[⟨"exp-1", "d"⟩], [⟨"run-1", "exp-1", 0⟩],
       [⟨"job-a", "Training", "arn:a", 1, ["run-1"]⟩]⟩ "exp-1").err :=
  cleanup_component_error_skipped
    (fun c => if c = "job-a" then some Err.TransientPlatformError else none)
    ⟨[⟨"exp-1", "d"⟩], [⟨"run-1", "exp-1", 0⟩],
     [⟨"job-a", "Training", "arn:a", 1, ["run-1"]⟩]⟩ "exp-1" "run-1" "job-a"
    [] Err.TransientPlatformError (by rfl)

end SMWorkflow
